import Mathlib

/-!
Verification of the ordering and pipeline policy of scripts/stitch_r2_videos.py.

The script discovers video objects in an object store, orders them
(manifest row order, case-insensitive key order, or last-modified order),
applies a hard-coded positional override, downloads and transcodes each
clip, builds an intro/outro slide from a required image, concatenates the
parts and uploads the result.  We embed the pure ordering logic directly
and model the driver as a function producing the sequence of external
effects (downloads, transcodes, slide creation, concatenation, upload)
together with a success flag.
-/

namespace Stitch

/-! ## Python string primitives, modelled for ASCII input -/

/-- Python str.lower, modelled for ASCII (maps A-Z to a-z, leaves the rest). -/
def pyLower (s : String) : String := String.mk (s.data.map Char.toLower)

/-- Split a character list at every character satisfying p; pieces may be empty,
mirroring Python-style splitting primitives. -/
def splitListChar (p : Char → Bool) : List Char → List (List Char)
  | [] => [[]]
  | c :: cs =>
    match splitListChar p cs with
    | [] => if p c then [[], []] else [[c]]
    | g :: gs => if p c then [] :: g :: gs else (c :: g) :: gs

/-- Python pathlib Path(s).name: the last nonempty component of a slash-separated
path (empty when there is none). -/
def pathName (s : String) : String :=
  ((((splitListChar (fun c => c = '/') s.data).filter (fun g => !g.isEmpty)).getLast?).map
    String.mk).getD ""

/-- The root part of Python os.path.splitext: drop the extension, where the
extension starts at the last dot that has some non-dot character before it. -/
def splitextRoot (s : String) : String :=
  let rev := s.data.reverse
  match rev.dropWhile (fun c => c ≠ '.') with
  | [] => s
  | _ :: rootRev =>
    if rootRev.any (fun c => c ≠ '.') then String.mk rootRev.reverse else s

/-- Python str.isdigit, modelled for ASCII: nonempty and all digits. -/
def pyIsDigit (s : String) : Bool := !s.data.isEmpty && s.data.all Char.isDigit

/-- Helper for pyTitle: the boolean records whether the previous character was
a letter (cased), in which case a following letter is lowercased rather than
uppercased. -/
def pyTitleAux : Bool → List Char → List Char
  | _, [] => []
  | prev, c :: cs =>
    if c.isAlpha then
      (if prev then c.toLower else c.toUpper) :: pyTitleAux true cs
    else
      c :: pyTitleAux false cs

/-- Python str.title, modelled for ASCII letters. -/
def pyTitle (s : String) : String := String.mk (pyTitleAux false s.data)

/-- Python str.strip: remove whitespace from both ends. -/
def pyStrip (s : String) : String :=
  String.mk (((s.data.dropWhile Char.isWhitespace).reverse.dropWhile
    Char.isWhitespace).reverse)

/-- Python " ".join. -/
def joinSpace : List String → String
  | [] => ""
  | [p] => p
  | p :: ps => p ++ " " ++ joinSpace ps

/-! ## Data model -/

/-- A listed object: storage key, last-modified timestamp and size, as returned
by the list-objects call (list_video_keys keeps exactly these three fields). -/
structure Obj where
  key : String
  lastModified : Nat
  size : Nat
  deriving DecidableEq, Repr

/-- An ordered clip entry as built in main: storage key plus display name. -/
structure Clip where
  key : String
  display : String
  deriving DecidableEq, Repr

/-- A parsed manifest row (read_manifest output entry). -/
structure ManifestRow where
  key : String
  display : String
  deriving DecidableEq, Repr

/-! ## Configuration constants from the script -/

def INTRO_IMAGE_NAME : String := "intro-image.png"

def FIRST_VIDEO_ORDER : List String :=
  ["max-2025-10-23_16-40-07.mov",
   "hayes-2025-10-23_16-41-10.mov",
   "mace-2025-10-23_16-40-44.mov"]

def LAST_VIDEO_NAME : String := "mom-and-dad-2025-10-28_23-26-34.mov"

/-! ## make_label_from_filename -/

/-- make_label_from_filename: basename, drop extension, separators to spaces,
drop a leading all-digit token when at least two tokens exist, title-case, strip. -/
def make_label_from_filename (name : String) : String :=
  let base := pathName name
  let base := splitextRoot base
  let baseR := String.mk (base.data.map
    (fun c => if c = '_' then ' ' else if c = '-' then ' ' else c))
  let parts := ((splitListChar Char.isWhitespace baseR.data).filter
    (fun g => !g.isEmpty)).map String.mk
  let base2 :=
    match parts with
    | p :: q :: rest => if pyIsDigit p then joinSpace (q :: rest) else baseR
    | _ => baseR
  pyStrip (pyTitle base2)

/-! ## list_video_keys -/

def keep_ext : List String := [".mp4", ".mov", ".m4v", ".webm", ".mkv", ".avi", ".3gp"]

/-- The filter used by list_video_keys: the lowercased key ends with one of the
kept extensions. -/
def hasVideoExt (key : String) : Bool :=
  keep_ext.any (fun e => e.data.isSuffixOf (pyLower key).data)

/-- list_video_keys: keep exactly the listed objects whose lowercased key ends
with a kept video extension, in listing order. -/
def list_video_keys (listing : List Obj) : List Obj :=
  listing.filter (fun o => hasVideoExt o.key)

/-! ## match_key_by_name and reorder_clips -/

/-- match_key_by_name: index and value of the first item whose base name equals
filename (case-sensitive), or none. -/
def match_key_by_name : List Clip → String → Option (Nat × Clip)
  | [], _ => none
  | item :: rest, filename =>
    if pathName item.key = filename then some (0, item)
    else
      match match_key_by_name rest filename with
      | some (i, it) => some (i + 1, it)
      | none => none

/-- The loop of reorder_clips over the required-first names: each found item is
appended to result and popped from working; a missing name aborts (none). -/
def reorder_go : List String → List Clip → List Clip → Option (List Clip × List Clip)
  | [], working, result => some (result, working)
  | expected :: rest, working, result =>
    match match_key_by_name working expected with
    | none => none
    | some (idx, item) => reorder_go rest (working.eraseIdx idx) (result ++ [item])

/-- reorder_clips parameterised by the required-first list and the required-last
name (in the script these are the module constants FIRST_VIDEO_ORDER and
LAST_VIDEO_NAME): force the required names to the front in the given order,
the last name to the end, keep the rest in between; none models sys.exit(1). -/
def reorder_clips_gen (firstOrder : List String) (lastName : String)
    (ordered : List Clip) : Option (List Clip) :=
  match reorder_go firstOrder ordered [] with
  | none => none
  | some (result, working) =>
    match match_key_by_name working lastName with
    | none => none
    | some (idx, lastItem) => some (result ++ working.eraseIdx idx ++ [lastItem])

/-- reorder_clips as in the script, with the hard-coded name lists. -/
def reorder_clips (ordered : List Clip) : Option (List Clip) :=
  reorder_clips_gen FIRST_VIDEO_ORDER LAST_VIDEO_NAME ordered

/-! ## Sorting (main, lines 292-296)

Python list.sort is a stable sort; we model it with insertion sort, which is
extensionally equal to any stable sort for the same comparison. -/

/-- Comparison for SORT_MODE name: case-insensitive lexicographic order of the
storage keys (Python compares the lowercased strings by code point). -/
def keyLe (a b : Obj) : Prop := (pyLower a.key).data ≤ (pyLower b.key).data

/-- Comparison for the default SORT_MODE last_modified. -/
def tsLe (a b : Obj) : Prop := a.lastModified ≤ b.lastModified

instance : DecidableRel keyLe := fun a b =>
  inferInstanceAs (Decidable ((pyLower a.key).data ≤ (pyLower b.key).data))

instance : DecidableRel tsLe := fun a b =>
  inferInstanceAs (Decidable (a.lastModified ≤ b.lastModified))

instance : IsTotal Obj keyLe := ⟨fun _ _ => le_total _ _⟩

instance : IsTrans Obj keyLe := ⟨fun _ _ _ h h' => le_trans h h'⟩

instance : IsTotal Obj tsLe := ⟨fun _ _ => Nat.le_total _ _⟩

instance : IsTrans Obj tsLe := ⟨fun _ _ _ h h' => Nat.le_trans h h'⟩

/-! ## The ordering portion of main (lines 282-300) -/

/-- The manifest actually used by main: only in manifest mode, and an empty row
list is falsy in Python, so it degrades to discovery like a read failure. -/
def effectiveManifest (sortMode : String) (manifest : Option (List ManifestRow)) :
    Option (List ManifestRow) :=
  match (if sortMode = "manifest" then manifest else none) with
  | some rows => if rows.isEmpty then none else some rows
  | none => none

/-- The ordered clip list before the positional override: manifest rows verbatim
when available, otherwise the discovered objects sorted by key (mode name) or
by last-modified timestamp (any other mode); none models sys.exit(1) on an
empty discovery. -/
def baseOrdered (sortMode : String) (manifest : Option (List ManifestRow))
    (listing : List Obj) : Option (List Clip) :=
  match effectiveManifest sortMode manifest with
  | some rows => some (rows.map (fun r => { key := r.key, display := r.display }))
  | none =>
    let objects := list_video_keys listing
    if objects.isEmpty then none
    else
      let sorted := if sortMode = "name"
        then List.insertionSort keyLe objects
        else List.insertionSort tsLe objects
      some (sorted.map (fun o => { key := o.key, display := "" }))

/-- The final ordered clip list: the positional override is applied to every
nonempty base ordering (main line 299-300). -/
def finalOrdered (sortMode : String) (manifest : Option (List ManifestRow))
    (listing : List Obj) : Option (List Clip) :=
  match baseOrdered sortMode manifest listing with
  | none => none
  | some ordered => if ordered.isEmpty then some ordered else reorder_clips ordered

/-! ## Pipeline driver (main), as a trace of external effects -/

/-- External effects performed by main, in order. -/
inductive Event where
  | downloadClip : String → Event
  | transcodeClip : String → Event
  | downloadImage : Event
  | makeSlide : Event
  | concatParts : Event
  | uploadFinal : Event
  deriving DecidableEq, Repr

/-- The object-store state a run sees: the listing under the source path, the
parse result of the manifest resource, and whether the intro image exists. -/
structure Store where
  listing : List Obj
  manifest : Option (List ManifestRow)
  hasIntroImage : Bool
  deriving Repr

/-- The per-clip loop of main: each clip is downloaded then transcoded. -/
def clipEvents : List Clip → List Event
  | [] => []
  | c :: cs => Event.downloadClip c.key :: Event.transcodeClip c.key :: clipEvents cs

/-- main as a trace of effects plus a success flag: ordering (with the
positional override), then per-clip download and transcode, then the intro
image download (a missing image raises after that download attempt), then
slide creation, concatenation and upload. -/
def pipeline (sortMode : String) (store : Store) : List Event × Bool :=
  match finalOrdered sortMode store.manifest store.listing with
  | none => ([], false)
  | some ordered =>
    if store.hasIntroImage then
      (clipEvents ordered ++
        [Event.downloadImage, Event.makeSlide, Event.concatParts, Event.uploadFinal],
       true)
    else
      (clipEvents ordered ++ [Event.downloadImage], false)

/-! ## Lemmas about match_key_by_name and reorder_clips -/

theorem match_key_by_name_none_iff (l : List Clip) (n : String) :
    match_key_by_name l n = none ↔ ∀ c ∈ l, pathName c.key ≠ n := by
  induction l with
  | nil => simp [match_key_by_name]
  | cons a as ih =>
    simp only [match_key_by_name]
    by_cases h : pathName a.key = n
    · simp [h]
    · rw [if_neg h]
      cases hm : match_key_by_name as n with
      | none =>
        simp only [List.mem_cons]
        constructor
        · intro _ c hc
          rcases hc with rfl | hc
          · exact h
          · exact (ih.mp hm) c hc
        · intro _; trivial
      | some p =>
        obtain ⟨i, it⟩ := p
        constructor
        · intro hfalse; exact Option.noConfusion hfalse
        · intro hall
          have hnone : match_key_by_name as n = none :=
            ih.mpr (fun c hc => hall c (List.mem_cons_of_mem _ hc))
          rw [hnone] at hm; exact Option.noConfusion hm

theorem match_key_by_name_some :
    ∀ {l : List Clip} {n : String} {i : Nat} {c : Clip},
      match_key_by_name l n = some (i, c) →
      pathName c.key = n ∧ (c :: l.eraseIdx i).Perm l := by
  intro l
  induction l with
  | nil => intro n i c h; simp [match_key_by_name] at h
  | cons a as ih =>
    intro n i c h
    simp only [match_key_by_name] at h
    by_cases hn : pathName a.key = n
    · rw [if_pos hn] at h
      simp only [Option.some.injEq, Prod.mk.injEq] at h
      obtain ⟨rfl, rfl⟩ := h
      exact ⟨hn, List.Perm.refl _⟩
    · rw [if_neg hn] at h
      cases hm : match_key_by_name as n with
      | none => rw [hm] at h; cases h
      | some p =>
        obtain ⟨j, it⟩ := p
        rw [hm] at h
        simp only [Option.some.injEq, Prod.mk.injEq] at h
        obtain ⟨rfl, rfl⟩ := h
        obtain ⟨hname, hperm⟩ := ih hm
        refine ⟨hname, ?_⟩
        have hswap : (it :: a :: as.eraseIdx j).Perm (a :: it :: as.eraseIdx j) :=
          List.Perm.swap a it _
        exact hswap.trans (hperm.cons a)

theorem match_key_by_name_isSome {l : List Clip} {n : String}
    (h : ∃ c ∈ l, pathName c.key = n) :
    ∃ i c, match_key_by_name l n = some (i, c) := by
  cases hm : match_key_by_name l n with
  | none =>
    obtain ⟨c, hc, hname⟩ := h
    exact absurd hname ((match_key_by_name_none_iff l n).mp hm c hc)
  | some p =>
    obtain ⟨i, c⟩ := p
    exact ⟨i, c, rfl⟩

theorem reorder_go_some_sublist :
    ∀ (first : List String) (working result r w' : List Clip),
      reorder_go first working result = some (r, w') → w'.Sublist working := by
  intro first
  induction first with
  | nil =>
    intro working result r w' h
    simp only [reorder_go, Option.some.injEq, Prod.mk.injEq] at h
    obtain ⟨rfl, rfl⟩ := h
    exact List.Sublist.refl _
  | cons e rest ih =>
    intro working result r w' h
    simp only [reorder_go] at h
    cases hm : match_key_by_name working e with
    | none => rw [hm] at h; cases h
    | some p =>
      obtain ⟨i, item⟩ := p
      rw [hm] at h
      exact (ih _ _ _ _ h).trans (List.eraseIdx_sublist working i)

theorem reorder_go_some_perm :
    ∀ (first : List String) (working result r w' : List Clip),
      reorder_go first working result = some (r, w') →
      (r ++ w').Perm (result ++ working) := by
  intro first
  induction first with
  | nil =>
    intro working result r w' h
    simp only [reorder_go, Option.some.injEq, Prod.mk.injEq] at h
    obtain ⟨rfl, rfl⟩ := h
    exact List.Perm.refl _
  | cons e rest ih =>
    intro working result r w' h
    simp only [reorder_go] at h
    cases hm : match_key_by_name working e with
    | none => rw [hm] at h; cases h
    | some p =>
      obtain ⟨i, item⟩ := p
      rw [hm] at h
      have hperm := (match_key_by_name_some hm).2
      have h1 : (r ++ w').Perm ((result ++ [item]) ++ working.eraseIdx i) := ih _ _ _ _ h
      have h2 : ((result ++ [item]) ++ working.eraseIdx i) =
          result ++ (item :: working.eraseIdx i) := by
        rw [List.append_assoc]; rfl
      exact (h2 ▸ h1).trans (hperm.append_left result)

theorem reorder_go_spec :
    ∀ (first : List String) (working result : List Clip),
      first.Nodup →
      (∀ n ∈ first, ∃ c ∈ working, pathName c.key = n) →
      ∃ picked w',
        reorder_go first working result = some (result ++ picked, w') ∧
        picked.map (fun c => pathName c.key) = first ∧
        (picked ++ w').Perm working ∧
        ∀ c ∈ working, pathName c.key ∉ first → c ∈ w' := by
  intro first
  induction first with
  | nil =>
    intro working result _ _
    exact ⟨[], working, by simp [reorder_go], by simp, List.Perm.refl _, fun c hc _ => hc⟩
  | cons e rest ih =>
    intro working result hnd hex
    obtain ⟨i, item, hm⟩ := match_key_by_name_isSome (hex e (List.mem_cons_self e rest))
    obtain ⟨hname, hperm⟩ := match_key_by_name_some hm
    have hndr : rest.Nodup := hnd.of_cons
    have henotr : e ∉ rest := (List.nodup_cons.mp hnd).1
    have hexr : ∀ n ∈ rest, ∃ c ∈ working.eraseIdx i, pathName c.key = n := by
      intro n hn
      obtain ⟨c, hc, hcname⟩ := hex n (List.mem_cons_of_mem e hn)
      have hcm : c ∈ item :: working.eraseIdx i := hperm.mem_iff.mpr hc
      rcases List.mem_cons.mp hcm with rfl | hcm'
      · have hne : n = e := by rw [← hcname, hname]
        exact absurd (hne ▸ hn) henotr
      · exact ⟨c, hcm', hcname⟩
    obtain ⟨picked', w', hgo, hmap, hperm', hkeep⟩ :=
      ih (working.eraseIdx i) (result ++ [item]) hndr hexr
    refine ⟨item :: picked', w', ?_, ?_, ?_, ?_⟩
    · simp only [reorder_go, hm]
      rw [hgo, List.append_assoc]
      rfl
    · simp [hmap, hname]
    · exact (hperm'.cons item).trans hperm
    · intro c hc hnotin
      have hne : c ≠ item := by
        intro hceq
        exact hnotin (by rw [hceq, hname]; exact List.mem_cons_self _ _)
      have hcm : c ∈ item :: working.eraseIdx i := hperm.mem_iff.mpr hc
      rcases List.mem_cons.mp hcm with rfl | hcm'
      · exact absurd rfl hne
      · exact hkeep c hcm' (fun hr => hnotin (List.mem_cons_of_mem _ hr))

theorem reorder_go_none_of_absent :
    ∀ (first : List String) (n : String), n ∈ first →
      ∀ (working result : List Clip),
        (∀ c ∈ working, pathName c.key ≠ n) →
        reorder_go first working result = none := by
  intro first
  induction first with
  | nil => intro n hn; cases hn
  | cons e rest ih =>
    intro n hn working result habs
    simp only [reorder_go]
    cases hm : match_key_by_name working e with
    | none => rfl
    | some p =>
      obtain ⟨i, item⟩ := p
      obtain ⟨hname, hperm⟩ := match_key_by_name_some hm
      have hitem : item ∈ working := hperm.subset (List.mem_cons_self _ _)
      have hne : e ≠ n := fun h => habs item hitem (h ▸ hname)
      have hnr : n ∈ rest := by
        rcases List.mem_cons.mp hn with rfl | h
        · exact absurd rfl hne.symm
        · exact h
      exact ih n hnr _ _ (fun c hc => habs c ((List.eraseIdx_sublist working i).subset hc))

theorem reorder_clips_gen_spec (firstOrder : List String) (lastName : String)
    (ordered : List Clip)
    (hnd : (firstOrder ++ [lastName]).Nodup)
    (hf : ∀ n ∈ firstOrder, ∃ c ∈ ordered, pathName c.key = n)
    (hl : ∃ c ∈ ordered, pathName c.key = lastName) :
    ∃ picked mid lastItem,
      reorder_clips_gen firstOrder lastName ordered = some (picked ++ mid ++ [lastItem]) ∧
      picked.map (fun c => pathName c.key) = firstOrder ∧
      pathName lastItem.key = lastName ∧
      mid.Sublist ordered ∧
      (picked ++ mid ++ [lastItem]).Perm ordered := by
  have hndf : firstOrder.Nodup := (List.nodup_append.mp hnd).1
  have hlastnot : lastName ∉ firstOrder := by
    intro h
    exact (List.nodup_append.mp hnd).2.2 h (List.mem_singleton_self _)
  obtain ⟨picked, w', hgo, hmap, hperm, hkeep⟩ := reorder_go_spec firstOrder ordered [] hndf hf
  obtain ⟨c0, hc0, hc0name⟩ := hl
  have hc0w : c0 ∈ w' := hkeep c0 hc0 (by rw [hc0name]; exact hlastnot)
  obtain ⟨j, lastItem, hm⟩ := match_key_by_name_isSome ⟨c0, hc0w, hc0name⟩
  obtain ⟨hlname, hlperm⟩ := match_key_by_name_some hm
  refine ⟨picked, w'.eraseIdx j, lastItem, ?_, hmap, hlname, ?_, ?_⟩
  · simp only [reorder_clips_gen, hgo, List.nil_append, hm]
  · exact (List.eraseIdx_sublist w' j).trans (reorder_go_some_sublist _ _ _ _ _ hgo)
  · have h1 : (w'.eraseIdx j ++ [lastItem]).Perm w' :=
      (List.perm_append_singleton _ _).trans hlperm
    have h2 : (picked ++ w').Perm ordered := by
      simpa using reorder_go_some_perm _ _ _ _ _ hgo
    rw [List.append_assoc]
    exact (h1.append_left picked).trans h2

theorem reorder_clips_gen_none_of_absent (firstOrder : List String) (lastName : String)
    (ordered : List Clip) (n : String)
    (hn : n ∈ firstOrder ++ [lastName])
    (habs : ∀ c ∈ ordered, pathName c.key ≠ n) :
    reorder_clips_gen firstOrder lastName ordered = none := by
  rcases List.mem_append.mp hn with hnf | hnl
  · simp [reorder_clips_gen, reorder_go_none_of_absent firstOrder n hnf ordered [] habs]
  · have hn' : n = lastName := List.mem_singleton.mp hnl
    subst hn'
    cases hgo : reorder_go firstOrder ordered [] with
    | none => simp [reorder_clips_gen, hgo]
    | some p =>
      obtain ⟨res, w'⟩ := p
      have hsub := reorder_go_some_sublist _ _ _ _ _ hgo
      have hnone : match_key_by_name w' n = none :=
        (match_key_by_name_none_iff _ _).mpr (fun c hc => habs c (hsub.subset hc))
      simp [reorder_clips_gen, hgo, hnone]

theorem reorder_clips_gen_some_perm {firstOrder : List String} {lastName : String}
    {ordered result : List Clip}
    (h : reorder_clips_gen firstOrder lastName ordered = some result) :
    result.Perm ordered := by
  simp only [reorder_clips_gen] at h
  cases hgo : reorder_go firstOrder ordered [] with
  | none =>
    simp only [hgo] at h
    exact Option.noConfusion h
  | some p =>
    obtain ⟨res, w'⟩ := p
    simp only [hgo] at h
    cases hm : match_key_by_name w' lastName with
    | none =>
      simp only [hm] at h
      exact Option.noConfusion h
    | some q =>
      obtain ⟨j, lastItem⟩ := q
      simp only [hm, Option.some.injEq] at h
      subst h
      have hlp := (match_key_by_name_some hm).2
      have h1 : (w'.eraseIdx j ++ [lastItem]).Perm w' :=
        (List.perm_append_singleton _ _).trans hlp
      have h2 : (res ++ w').Perm ordered := by
        simpa using reorder_go_some_perm _ _ _ _ _ hgo
      rw [List.append_assoc]
      exact (h1.append_left res).trans h2

/-! ## Lemmas about the pipeline trace -/

theorem mem_clipEvents :
    ∀ (l : List Clip) (e : Event), e ∈ clipEvents l →
      ∃ k, e = Event.downloadClip k ∨ e = Event.transcodeClip k := by
  intro l
  induction l with
  | nil => intro e he; cases he
  | cons c cs ih =>
    intro e he
    simp only [clipEvents, List.mem_cons] at he
    rcases he with rfl | rfl | he
    · exact ⟨c.key, Or.inl rfl⟩
    · exact ⟨c.key, Or.inr rfl⟩
    · exact ih e he

theorem makeSlide_not_mem_clipEvents (l : List Clip) :
    Event.makeSlide ∉ clipEvents l := by
  intro h
  obtain ⟨k, hk | hk⟩ := mem_clipEvents l _ h <;> cases hk

theorem concatParts_not_mem_clipEvents (l : List Clip) :
    Event.concatParts ∉ clipEvents l := by
  intro h
  obtain ⟨k, hk | hk⟩ := mem_clipEvents l _ h <;> cases hk

theorem uploadFinal_not_mem_clipEvents (l : List Clip) :
    Event.uploadFinal ∉ clipEvents l := by
  intro h
  obtain ⟨k, hk | hk⟩ := mem_clipEvents l _ h <;> cases hk

/-- Elements of a sorted-and-mapped discovery list come from the discovered
objects, with the storage key kept. -/
theorem mem_map_insertionSort_key {r : Obj → Obj → Prop} [DecidableRel r]
    {objs : List Obj} {c : Clip}
    (hc : c ∈ (List.insertionSort r objs).map
      (fun o => ({ key := o.key, display := "" } : Clip))) :
    ∃ o ∈ objs, c.key = o.key := by
  obtain ⟨o, ho, rfl⟩ := List.mem_map.mp hc
  exact ⟨o, (List.perm_insertionSort r objs).subset ho, rfl⟩

/-- Suffix testing on the character lists agrees with a string-level
decomposition. -/
theorem string_suffix_iff (s e : String) :
    e.data.isSuffixOf s.data = true ↔ ∃ t : String, s = t ++ e := by
  rw [List.isSuffixOf_iff_suffix]
  constructor
  · rintro ⟨tl, htl⟩
    refine ⟨String.mk tl, ?_⟩
    cases s with
    | mk d =>
      cases e with
      | mk de => exact congrArg String.mk htl.symm
  · rintro ⟨t, rfl⟩
    exact ⟨t.data, rfl⟩

/-! ## Concrete inputs used by witnesses and counterexamples -/

/-- A store listing that contains the four required override clips plus one
ordinary clip. -/
def cexListing : List Obj :=
  [⟨"a.mov", 0, 1⟩,
   ⟨"max-2025-10-23_16-40-07.mov", 10, 1⟩,
   ⟨"hayes-2025-10-23_16-41-10.mov", 20, 1⟩,
   ⟨"mace-2025-10-23_16-40-44.mov", 30, 1⟩,
   ⟨"mom-and-dad-2025-10-28_23-26-34.mov", 5, 1⟩]

/-- The clip order finalOrdered produces on cexListing in both name and
last_modified modes. -/
def cexFinal : List Clip :=
  [⟨"max-2025-10-23_16-40-07.mov", ""⟩,
   ⟨"hayes-2025-10-23_16-41-10.mov", ""⟩,
   ⟨"mace-2025-10-23_16-40-44.mov", ""⟩,
   ⟨"a.mov", ""⟩,
   ⟨"mom-and-dad-2025-10-28_23-26-34.mov", ""⟩]

/-- A tiny listing with none of the required override clips. -/
def smallListing : List Obj := [⟨"a.mov", 0, 1⟩]

/-- The base-ordered clip set of the positional-override example. -/
def exampleClips : List Clip :=
  [⟨"A.mov", ""⟩, ⟨"B.mov", ""⟩, ⟨"C.mov", ""⟩, ⟨"D.mov", ""⟩, ⟨"Z.mov", ""⟩]

/-- The last-modified timestamp the listing reports for a key (0 when the key
is not listed); used to state order properties of the final clip sequence. -/
def tsOf (listing : List Obj) (k : String) : Nat :=
  match listing.find? (fun o => o.key == k) with
  | some o => o.lastModified
  | none => 0

/-- The two-row manifest of the manifest-ordering example. -/
def exampleRows : List ManifestRow := [⟨"k1.mov", "Alice"⟩, ⟨"k2.mov", "Bob"⟩]

/-- A store that has the required clips but no intro image. -/
def noImageStore : Store := ⟨cexListing, none, false⟩

/-! ## Claim theorems -/

/-- C2: for every base-ordered clip list containing all the required filenames
(the required names being distinct), the positional override returns the
required clips first in the specified order, the designated clip last, and the
remaining clips in between in their base relative order; matching is on the
case-sensitive base name of the storage key, and the result is a permutation
of the input. -/
theorem c2_positional_override (firstOrder : List String) (lastName : String)
    (ordered : List Clip)
    (hnd : (firstOrder ++ [lastName]).Nodup)
    (hf : ∀ n ∈ firstOrder, ∃ c ∈ ordered, pathName c.key = n)
    (hl : ∃ c ∈ ordered, pathName c.key = lastName) :
    ∃ picked mid lastItem,
      reorder_clips_gen firstOrder lastName ordered = some (picked ++ mid ++ [lastItem]) ∧
      picked.map (fun c => pathName c.key) = firstOrder ∧
      pathName lastItem.key = lastName ∧
      mid.Sublist ordered ∧
      (picked ++ mid ++ [lastItem]).Perm ordered :=
  reorder_clips_gen_spec firstOrder lastName ordered hnd hf hl

/-- Witness for C2 at the example of the spec: base set A, B, C, D, Z with
required-first B, C and required-last Z yields B, C, A, D, Z. -/
theorem c2_positional_override_witness :
    reorder_clips_gen ["B.mov", "C.mov"] "Z.mov" exampleClips =
      some [⟨"B.mov", ""⟩, ⟨"C.mov", ""⟩, ⟨"A.mov", ""⟩, ⟨"D.mov", ""⟩, ⟨"Z.mov", ""⟩] ∧
    (∃ picked mid lastItem,
      reorder_clips_gen ["B.mov", "C.mov"] "Z.mov" exampleClips =
        some (picked ++ mid ++ [lastItem]) ∧
      picked.map (fun c => pathName c.key) = ["B.mov", "C.mov"] ∧
      pathName lastItem.key = "Z.mov" ∧
      mid.Sublist exampleClips ∧
      (picked ++ mid ++ [lastItem]).Perm exampleClips) :=
  ⟨by decide,
   c2_positional_override ["B.mov", "C.mov"] "Z.mov" exampleClips
     (by decide) (by decide) (by decide)⟩

/-- C8: deriving the display label from 05_uncle-joe-2025.mov strips the
extension and separators, drops the leading numeric token, and title-cases the
rest, giving exactly Uncle Joe 2025. -/
theorem c8_label_derivation :
    make_label_from_filename "05_uncle-joe-2025.mov" = "Uncle Joe 2025" := by decide

/-- C9: whenever reorder_clips returns normally, its output is a permutation of
its input: same length and the same number of occurrences of every clip. -/
theorem c9_reorder_preserves_clips (ordered result : List Clip)
    (h : reorder_clips ordered = some result) :
    result.Perm ordered ∧ result.length = ordered.length ∧
    ∀ c : Clip, result.count c = ordered.count c := by
  have hp : result.Perm ordered := reorder_clips_gen_some_perm h
  exact ⟨hp, hp.length_eq, fun c => hp.count_eq c⟩

/-- Witness for C9: a concrete successful reordering is a permutation. -/
theorem c9_reorder_preserves_clips_witness :
    reorder_clips cexFinal = some cexFinal ∧
    (cexFinal.Perm cexFinal ∧ cexFinal.length = cexFinal.length ∧
      ∀ c : Clip, cexFinal.count c = cexFinal.count c) :=
  ⟨by decide, c9_reorder_preserves_clips cexFinal cexFinal (by decide)⟩

/-- C10: discovery keeps exactly the listed objects whose lowercased storage key
ends with one of the seven video extensions, and excludes every other object. -/
theorem c10_extension_filter (listing : List Obj) (o : Obj) :
    o ∈ list_video_keys listing ↔
      o ∈ listing ∧ ∃ e ∈ keep_ext, ∃ t : String, pyLower o.key = t ++ e := by
  rw [list_video_keys, List.mem_filter]
  apply and_congr_right
  intro _
  rw [hasVideoExt, List.any_eq_true]
  constructor
  · rintro ⟨e, he, hs⟩
    exact ⟨e, he, (string_suffix_iff _ _).mp hs⟩
  · rintro ⟨e, he, hs⟩
    exact ⟨e, he, (string_suffix_iff _ _).mpr hs⟩

/-- Witness for C10: an uppercase .MOV key is kept. -/
theorem c10_extension_filter_witness :
    (⟨"uploads/A.MOV", 3, 7⟩ : Obj) ∈ list_video_keys [⟨"uploads/A.MOV", 3, 7⟩] :=
  (c10_extension_filter _ _).mpr
    ⟨List.mem_singleton_self _, ".mov", by decide, "uploads/a", by decide⟩

/-- C1 counterexample: with sort_mode manifest and the manifest rows
(k1.mov, Alice), (k2.mov, Bob), the final ordered sequence is not the manifest
row order: the run aborts in reorder_clips because the hard-coded required
filenames are absent, whatever the store listing holds. -/
theorem c1_counterexample :
    finalOrdered "manifest" (some [⟨"k1.mov", "Alice"⟩, ⟨"k2.mov", "Bob"⟩]) cexListing =
      none ∧
    finalOrdered "manifest" (some [⟨"k1.mov", "Alice"⟩, ⟨"k2.mov", "Bob"⟩]) cexListing ≠
      some [⟨"k1.mov", "Alice"⟩, ⟨"k2.mov", "Bob"⟩] := by decide

/-- C1 (amended): in manifest mode a nonempty parsed manifest gives the base
ordering verbatim, row order and display names unchanged, independent of the
store listing; the final sequence is the positional override applied to that
base ordering. -/
theorem c1_manifest_base_order (rows : List ManifestRow) (listing : List Obj)
    (hne : rows ≠ []) :
    baseOrdered "manifest" (some rows) listing =
      some (rows.map (fun r => { key := r.key, display := r.display })) ∧
    finalOrdered "manifest" (some rows) listing =
      reorder_clips (rows.map (fun r => { key := r.key, display := r.display })) := by
  have hrows : rows.isEmpty = false := List.isEmpty_eq_false.mpr hne
  have hbase : baseOrdered "manifest" (some rows) listing =
      some (rows.map (fun r => { key := r.key, display := r.display })) := by
    simp [baseOrdered, effectiveManifest, hrows]
  refine ⟨hbase, ?_⟩
  have hne2 : (rows.map (fun r =>
      ({ key := r.key, display := r.display } : Clip))).isEmpty = false :=
    List.isEmpty_eq_false.mpr (fun h => hne (List.map_eq_nil_iff.mp h))
  simp [finalOrdered, hbase, hne2]

/-- Witness for C1 (amended) at the manifest (k1.mov, Alice), (k2.mov, Bob). -/
theorem c1_manifest_base_order_witness :
    exampleRows ≠ [] ∧
    (baseOrdered "manifest" (some exampleRows) cexListing =
      some (exampleRows.map (fun r => { key := r.key, display := r.display })) ∧
    finalOrdered "manifest" (some exampleRows) cexListing =
      reorder_clips (exampleRows.map (fun r => { key := r.key, display := r.display }))) :=
  ⟨by decide, c1_manifest_base_order exampleRows cexListing (by decide)⟩

/-- C3 counterexample: a store holding the required clips but no intro image.
The run does fail, but only after transcoding every clip: a transcode event is
in the trace, so it does not abort before transcoding begins. -/
theorem c3_counterexample :
    (pipeline "name" noImageStore).2 = false ∧
    Event.transcodeClip "max-2025-10-23_16-40-07.mov" ∈
      (pipeline "name" noImageStore).1 := by decide

/-- C3 (amended): when the intro image resource is absent the run always fails,
and neither slide creation nor concatenation nor upload happens; the per-clip
downloads and transcodes have already run by the time the image is fetched. -/
theorem c3_missing_image_fatal (sortMode : String) (store : Store)
    (him : store.hasIntroImage = false) :
    (pipeline sortMode store).2 = false ∧
    Event.makeSlide ∉ (pipeline sortMode store).1 ∧
    Event.concatParts ∉ (pipeline sortMode store).1 ∧
    Event.uploadFinal ∉ (pipeline sortMode store).1 := by
  cases hfo : finalOrdered sortMode store.manifest store.listing with
  | none => simp [pipeline, hfo]
  | some ordered =>
    simp only [pipeline, hfo, him, Bool.false_eq_true, if_false, List.mem_append,
      List.mem_singleton]
    refine ⟨trivial, ?_, ?_, ?_⟩
    · rintro (h | h)
      · exact makeSlide_not_mem_clipEvents ordered h
      · cases h
    · rintro (h | h)
      · exact concatParts_not_mem_clipEvents ordered h
      · cases h
    · rintro (h | h)
      · exact uploadFinal_not_mem_clipEvents ordered h
      · cases h

/-- Witness for C3 (amended). -/
theorem c3_missing_image_fatal_witness :
    noImageStore.hasIntroImage = false ∧
    ((pipeline "name" noImageStore).2 = false ∧
    Event.makeSlide ∉ (pipeline "name" noImageStore).1 ∧
    Event.concatParts ∉ (pipeline "name" noImageStore).1 ∧
    Event.uploadFinal ∉ (pipeline "name" noImageStore).1) :=
  ⟨rfl, c3_missing_image_fatal "name" noImageStore rfl⟩

/-- C4: whenever the discovered clip set lacks one of the required override
filenames (and no manifest is in effect), the run aborts with an empty effect
trace: in particular no clip download is ever performed. -/
theorem c4_missing_required_aborts (sortMode : String) (store : Store) (n : String)
    (hman : effectiveManifest sortMode store.manifest = none)
    (hn : n ∈ FIRST_VIDEO_ORDER ++ [LAST_VIDEO_NAME])
    (habs : ∀ o ∈ list_video_keys store.listing, pathName o.key ≠ n) :
    pipeline sortMode store = ([], false) ∧
    ∀ k, Event.downloadClip k ∉ (pipeline sortMode store).1 := by
  have hfo : finalOrdered sortMode store.manifest store.listing = none := by
    by_cases he : (list_video_keys store.listing).isEmpty = true
    · simp [finalOrdered, baseOrdered, hman, he]
    · rw [Bool.not_eq_true] at he
      have hobjs : list_video_keys store.listing ≠ [] := List.isEmpty_eq_false.mp he
      have hsper : (if sortMode = "name"
          then List.insertionSort keyLe (list_video_keys store.listing)
          else List.insertionSort tsLe (list_video_keys store.listing)).Perm
            (list_video_keys store.listing) := by
        split
        · exact List.perm_insertionSort _ _
        · exact List.perm_insertionSort _ _
      have habs2 : ∀ c ∈ (if sortMode = "name"
          then List.insertionSort keyLe (list_video_keys store.listing)
          else List.insertionSort tsLe (list_video_keys store.listing)).map
            (fun o => ({ key := o.key, display := "" } : Clip)),
          pathName c.key ≠ n := by
        intro c hc
        obtain ⟨o, ho, rfl⟩ := List.mem_map.mp hc
        exact habs o (hsper.subset ho)
      have hre : reorder_clips_gen FIRST_VIDEO_ORDER LAST_VIDEO_NAME
          ((if sortMode = "name"
            then List.insertionSort keyLe (list_video_keys store.listing)
            else List.insertionSort tsLe (list_video_keys store.listing)).map
              (fun o => ({ key := o.key, display := "" } : Clip))) = none :=
        reorder_clips_gen_none_of_absent _ _ _ n hn habs2
      simp only [finalOrdered, baseOrdered, hman, he, Bool.false_eq_true, if_false]
      cases hemp : ((if sortMode = "name"
          then List.insertionSort keyLe (list_video_keys store.listing)
          else List.insertionSort tsLe (list_video_keys store.listing)).map
            (fun o => ({ key := o.key, display := "" } : Clip))).isEmpty
      · simp only [hemp, Bool.false_eq_true, if_false]
        exact hre
      · exfalso
        have hnil := List.isEmpty_iff.mp hemp
        have hsnil : (if sortMode = "name"
            then List.insertionSort keyLe (list_video_keys store.listing)
            else List.insertionSort tsLe (list_video_keys store.listing)) = [] :=
          List.map_eq_nil_iff.mp hnil
        rw [hsnil] at hsper
        have h0 : (list_video_keys store.listing).length = 0 := by
          rw [← hsper.length_eq]
          rfl
        exact hobjs (List.length_eq_zero.mp h0)
  constructor
  · simp [pipeline, hfo]
  · intro k
    simp [pipeline, hfo]

/-- Witness for C4: a listing holding only a.mov lacks the first required clip,
and the run aborts with no downloads. -/
theorem c4_missing_required_aborts_witness :
    effectiveManifest "last_modified" none = none ∧
    "max-2025-10-23_16-40-07.mov" ∈ FIRST_VIDEO_ORDER ++ [LAST_VIDEO_NAME] ∧
    (∀ o ∈ list_video_keys smallListing,
      pathName o.key ≠ "max-2025-10-23_16-40-07.mov") ∧
    (pipeline "last_modified" ⟨smallListing, none, true⟩ = ([], false) ∧
      ∀ k, Event.downloadClip k ∉ (pipeline "last_modified" ⟨smallListing, none, true⟩).1) :=
  ⟨by decide, by decide, by decide,
   c4_missing_required_aborts "last_modified" ⟨smallListing, none, true⟩
     "max-2025-10-23_16-40-07.mov" (by decide) (by decide) (by decide)⟩

/-- C7: an empty discovered clip set together with no manifest rows aborts the
run with an empty trace: nothing is uploaded and nothing is transcoded. -/
theorem c7_empty_set_aborts (sortMode : String) (store : Store)
    (hd : list_video_keys store.listing = [])
    (hm : store.manifest = none ∨ store.manifest = some []) :
    pipeline sortMode store = ([], false) ∧
    Event.uploadFinal ∉ (pipeline sortMode store).1 ∧
    ∀ k, Event.transcodeClip k ∉ (pipeline sortMode store).1 := by
  have hman : effectiveManifest sortMode store.manifest = none := by
    rcases hm with h | h
    · simp [effectiveManifest, h]
    · by_cases hc : sortMode = "manifest" <;> simp [effectiveManifest, h, hc]
  have hfo : finalOrdered sortMode store.manifest store.listing = none := by
    simp [finalOrdered, baseOrdered, hman, hd]
  refine ⟨by simp [pipeline, hfo], ?_, ?_⟩
  · simp [pipeline, hfo]
  · intro k
    simp [pipeline, hfo]

/-- Witness for C7: a listing with only a text file discovers no clips. -/
theorem c7_empty_set_aborts_witness :
    list_video_keys [⟨"uploads/readme.txt", 0, 1⟩] = [] ∧
    ((none : Option (List ManifestRow)) = none ∨
      (none : Option (List ManifestRow)) = some []) ∧
    (pipeline "last_modified" ⟨[⟨"uploads/readme.txt", 0, 1⟩], none, true⟩ = ([], false) ∧
      Event.uploadFinal ∉
        (pipeline "last_modified" ⟨[⟨"uploads/readme.txt", 0, 1⟩], none, true⟩).1 ∧
      ∀ k, Event.transcodeClip k ∉
        (pipeline "last_modified" ⟨[⟨"uploads/readme.txt", 0, 1⟩], none, true⟩).1) :=
  ⟨by decide, Or.inl rfl,
   c7_empty_set_aborts "last_modified" ⟨[⟨"uploads/readme.txt", 0, 1⟩], none, true⟩
     (by decide) (Or.inl rfl)⟩

/-- C5 counterexample: in name mode the final output order is not the
case-insensitive key order: the positional override moved the required clips,
so the produced sequence is not even non-decreasing in lowercased key. -/
theorem c5_counterexample :
    finalOrdered "name" none cexListing = some cexFinal ∧
    ¬ (cexFinal.map Clip.key).Pairwise
      (fun a b => (pyLower a).data ≤ (pyLower b).data) := by decide

/-- C5 (amended): in name mode the base ordering, computed before the
positional override, lists exactly the discovered clips (same keys, empty
display names) in non-decreasing case-insensitive lexicographic key order. -/
theorem c5_name_mode_base_sorted (manifest : Option (List ManifestRow))
    (listing : List Obj)
    (hne : list_video_keys listing ≠ []) :
    ∃ l, baseOrdered "name" manifest listing = some l ∧
      (l.map Clip.key).Perm ((list_video_keys listing).map Obj.key) ∧
      (l.map Clip.key).Pairwise (fun a b => (pyLower a).data ≤ (pyLower b).data) ∧
      ∀ c ∈ l, c.display = "" := by
  have hman : effectiveManifest "name" manifest = none := by
    simp [effectiveManifest]
  have he : (list_video_keys listing).isEmpty = false := List.isEmpty_eq_false.mpr hne
  refine ⟨(List.insertionSort keyLe (list_video_keys listing)).map
    (fun o => { key := o.key, display := "" }), ?_, ?_, ?_, ?_⟩
  · simp [baseOrdered, hman, he]
  · have hp := (List.perm_insertionSort keyLe (list_video_keys listing)).map Obj.key
    simpa [List.map_map, Function.comp] using hp
  · have hs := List.sorted_insertionSort keyLe (list_video_keys listing)
    rw [List.map_map, List.pairwise_map]
    exact hs
  · intro c hc
    obtain ⟨o, _, rfl⟩ := List.mem_map.mp hc
    rfl

/-- Witness for C5 (amended). -/
theorem c5_name_mode_base_sorted_witness :
    list_video_keys cexListing ≠ [] ∧
    (∃ l, baseOrdered "name" none cexListing = some l ∧
      (l.map Clip.key).Perm ((list_video_keys cexListing).map Obj.key) ∧
      (l.map Clip.key).Pairwise (fun a b => (pyLower a).data ≤ (pyLower b).data) ∧
      ∀ c ∈ l, c.display = "") :=
  ⟨by decide, c5_name_mode_base_sorted none cexListing (by decide)⟩

/-- C6 counterexample: in last_modified mode the final output order is not
non-decreasing in the store-reported timestamps: the positional override puts
the required clips (timestamps 10, 20, 30) before a.mov (timestamp 0). -/
theorem c6_counterexample :
    finalOrdered "last_modified" none cexListing = some cexFinal ∧
    cexFinal.map (fun c => tsOf cexListing c.key) = [10, 20, 30, 0, 5] ∧
    ¬ List.Pairwise (fun a b : Nat => a ≤ b)
      (cexFinal.map (fun c => tsOf cexListing c.key)) := by decide

/-- C6 (amended): in last_modified mode the base ordering, computed before the
positional override, is a permutation of the discovered objects that is
non-decreasing in last-modified timestamp, and clips with equal timestamps keep
the store enumeration order (the sort is stable: filtering the sorted list to
any fixed timestamp returns exactly the discovery-order sublist). -/
theorem c6_last_modified_base_sorted (manifest : Option (List ManifestRow))
    (listing : List Obj)
    (hne : list_video_keys listing ≠ []) :
    ∃ sorted : List Obj,
      baseOrdered "last_modified" manifest listing =
        some (sorted.map (fun o => { key := o.key, display := "" })) ∧
      sorted.Perm (list_video_keys listing) ∧
      sorted.Pairwise tsLe ∧
      ∀ t, sorted.filter (fun o => o.lastModified == t) =
        (list_video_keys listing).filter (fun o => o.lastModified == t) := by
  have hman : effectiveManifest "last_modified" manifest = none := by
    simp [effectiveManifest]
  have he : (list_video_keys listing).isEmpty = false := List.isEmpty_eq_false.mpr hne
  refine ⟨List.insertionSort tsLe (list_video_keys listing), ?_,
    List.perm_insertionSort _ _, List.sorted_insertionSort _ _, ?_⟩
  · simp [baseOrdered, hman, he]
  · intro t
    have hall : ∀ o ∈ (list_video_keys listing).filter
        (fun o => o.lastModified == t), o.lastModified = t := by
      intro o ho
      simpa using (List.mem_filter.mp ho).2
    have hpw : ((list_video_keys listing).filter
        (fun o => o.lastModified == t)).Pairwise tsLe :=
      List.pairwise_of_forall_mem_list (fun a ha b hb => by
        show a.lastModified ≤ b.lastModified
        rw [hall a ha, hall b hb])
    have hsl : ((list_video_keys listing).filter
        (fun o => o.lastModified == t)).Sublist
          (List.insertionSort tsLe (list_video_keys listing)) :=
      List.sublist_insertionSort hpw (List.filter_sublist _)
    have hfil : ((list_video_keys listing).filter
        (fun o => o.lastModified == t)).filter (fun o => o.lastModified == t) =
          (list_video_keys listing).filter (fun o => o.lastModified == t) :=
      List.filter_eq_self.mpr (fun a ha => (List.mem_filter.mp ha).2)
    have hsl2 : ((list_video_keys listing).filter
        (fun o => o.lastModified == t)).Sublist
          ((List.insertionSort tsLe (list_video_keys listing)).filter
            (fun o => o.lastModified == t)) := by
      have hstep := hsl.filter (fun o => o.lastModified == t)
      rwa [hfil] at hstep
    have hperm : ((List.insertionSort tsLe (list_video_keys listing)).filter
        (fun o => o.lastModified == t)).Perm
          ((list_video_keys listing).filter (fun o => o.lastModified == t)) :=
      (List.perm_insertionSort tsLe (list_video_keys listing)).filter _
    exact (hsl2.eq_of_length hperm.length_eq.symm).symm

/-- Witness for C6 (amended). -/
theorem c6_last_modified_base_sorted_witness :
    list_video_keys cexListing ≠ [] ∧
    (∃ sorted : List Obj,
      baseOrdered "last_modified" none cexListing =
        some (sorted.map (fun o => { key := o.key, display := "" })) ∧
      sorted.Perm (list_video_keys cexListing) ∧
      sorted.Pairwise tsLe ∧
      ∀ t, sorted.filter (fun o => o.lastModified == t) =
        (list_video_keys cexListing).filter (fun o => o.lastModified == t)) :=
  ⟨by decide, c6_last_modified_base_sorted none cexListing (by decide)⟩

end Stitch
